import Mathlib

/-!
Verification development for the hippo-cli artifact expander.

The orchestration layer (`src/main.rs`) is embedded directly: the spec type
read from the HIPPOFACTS file, the prefetch of external invoices, the
output-format parser, the destination-directory selection, and the `run`
sequencing of expand / write / push / register.  The library modules
(`expander`, `bindle_writer`, `hippofacts` internals, the content hasher)
are not part of the source tree given here; where a claim depends on them
they are modelled from the specification document, and each such definition
says so in its doc comment.

Machine-level details (file I/O, the network) are represented by explicit
oracles: a run is a pure function of the results its collaborators would
return, and it records which collaborators it invoked as a trace of events.
-/

/-- Modelled from the spec: an ExternalReference (spec section 3) carries the
exact identity of a previously published bindle; `hippofacts.rs` is not in
the given tree, so only the field the orchestration reads is kept.
Identities are strings (bindle::Id rendered as name/version). -/
structure ExternalRef where
  bindle_id : String
deriving DecidableEq, Repr

/-- Modelled from the spec: a ComponentEntry (spec section 3) as seen by the
orchestration layer, which only consults its optional external reference via
`HippoFactsEntry::external_ref()`. -/
structure HippoFactsEntry where
  external_ref : Option ExternalRef
deriving DecidableEq, Repr

/-- Modelled from the spec: a PackageSpec (spec section 3) is an ordered
sequence of component entries; mirrors `HippoFacts { entries }`. -/
structure HippoFacts where
  entries : List HippoFactsEntry
deriving DecidableEq, Repr

/-- The identity-bearing part of a bindle invoice; `run` reads
`invoice.bindle.id`. -/
structure BindleMeta where
  id : String
deriving DecidableEq, Repr

/-- A fetched or freshly expanded invoice, reduced to the part the
orchestration inspects (its identity). -/
structure Invoice where
  bindle : BindleMeta
deriving DecidableEq, Repr

/-- Errors a run can surface.  `noBindleUrl` is the error raised at
src/main.rs:244-246 when the spec has external references but no Bindle
server URL was supplied; every other failure a collaborator can produce is
carried as an opaque message. -/
inductive RunError
  | noBindleUrl
  | collaborator (msg : String)
deriving DecidableEq, Repr

/-- Association-list embedding of `HashMap<bindle::Id, bindle::Invoice>`:
insert replaces an existing binding for the key, as `HashMap::insert` does. -/
def mapInsert (m : List (String × Invoice)) (k : String) (v : Invoice) :
    List (String × Invoice) :=
  match m with
  | [] => [(k, v)]
  | (k₀, v₀) :: rest =>
    if k₀ = k then (k, v) :: rest else (k₀, v₀) :: mapInsert rest k v

/-- Lookup in the association-list map. -/
def mapLookup (m : List (String × Invoice)) (k : String) : Option Invoice :=
  match m with
  | [] => none
  | (k₀, v₀) :: rest => if k₀ = k then some v₀ else mapLookup rest k

/-- Embedding of `external_bindle_id` (src/main.rs:257-259): the external
bindle identity of an entry, when it has one. -/
def external_bindle_id (entry : HippoFactsEntry) : Option String :=
  entry.external_ref.map ExternalRef.bindle_id

/-- The fetch loop of `prefetch_required_invoices` (src/main.rs:249-252):
fetch each external reference in order, aborting on the first failure, and
insert the invoice into the map.  The `fetch` oracle stands for
`client.get_yanked_invoice`; a failure to construct the client is subsumed
as every fetch failing. -/
def fetchAllInvoices (fetch : String → Except RunError Invoice) :
    List String → List (String × Invoice) → Except RunError (List (String × Invoice))
  | [], map => Except.ok map
  | r :: rest, map =>
    match fetch r with
    | Except.error e => Except.error e
    | Except.ok invoice => fetchAllInvoices fetch rest (mapInsert map r invoice)

/-- Embedding of `prefetch_required_invoices` (src/main.rs:229-255): collect
the external bindle ids of all entries; if there are none, succeed with the
empty map without consulting the URL or the network; otherwise require a
Bindle server URL and fetch every reference. -/
def prefetchRequiredInvoices (hippofacts : HippoFacts) (bindle_url : Option String)
    (fetch : String → Except RunError Invoice) :
    Except RunError (List (String × Invoice)) :=
  let external_refs := hippofacts.entries.filterMap external_bindle_id
  if external_refs.isEmpty then Except.ok []
  else
    match bindle_url with
    | none => Except.error RunError.noBindleUrl
    | some _ => fetchAllInvoices fetch external_refs []

/-- Embedding of `OutputFormat` (src/main.rs:261-265). -/
inductive OutputFormat
  | none
  | id
  | message
deriving DecidableEq, Repr

/-- Embedding of `OutputFormat::parse` (src/main.rs:267-277): "none" and
"id" map to their variants, anything else falls through to `Message`. -/
def OutputFormat.parse (text : String) : OutputFormat :=
  if text = "none" then OutputFormat.none
  else if text = "id" then OutputFormat.id
  else OutputFormat.message

/-- Embedding of `BindleSettings` (src/main.rs:279-282). -/
inductive BindleSettings
  | noPush (url : Option String)
  | push (url : String)
deriving DecidableEq, Repr

/-- Embedding of `BindleSettings::bindle_url` (src/main.rs:284-291). -/
def BindleSettings.bindle_url : BindleSettings → Option String
  | BindleSettings.noPush opt => opt
  | BindleSettings.push url => some url

/-- Connection details for the Hippo registration service
(`hippo_notifier::ConnectionInfo`, module not in the given tree); only its
presence drives control flow in `run`. -/
structure ConnectionInfo where
  url : String
deriving DecidableEq, Repr

/-- Observable collaborator invocations of one run: the staging writer, the
bindle pusher (with the invoice identity it was given), and the Hippo
registrar (with the invoice identity it was given). -/
inductive RunEvent
  | writeInvoked
  | pushInvoked (id : String)
  | registerInvoked (id : String)
deriving DecidableEq, Repr

/-- Results the collaborators of `run` would return, making `run` a pure
function of them: `readSpec` is `HippoFacts::read_from`, `fetch` is the
bindle client's invoice fetch, `expand` is `expander::expand`, `write` is
`BindleWriter::write`, `push` is `bindle_pusher::push_all`, `register` is
`hippo_notifier::register`, and `canonicalizeDest` is
`dunce::canonicalize(&destination)` used when printing the message output. -/
structure RunOracles where
  readSpec : Except RunError HippoFacts
  fetch : String → Except RunError Invoice
  expand : HippoFacts → List (String × Invoice) → Except RunError Invoice
  write : Invoice → Except RunError Unit
  push : Invoice → Except RunError Unit
  register : Invoice → Except RunError Unit
  canonicalizeDest : Except RunError String

/-- Embedding of `run` (src/main.rs:171-227): read the spec, prefetch
external invoices, expand, write the staging directory, then — only under
push settings — push, and — only when a Hippo URL was supplied — register.
The first failure aborts the run with that error.  Alongside the result it
returns the trace of collaborator invocations in order. -/
def runModel (o : RunOracles) (output_format : OutputFormat)
    (bindle_settings : BindleSettings) (notify_to : Option ConnectionInfo) :
    List RunEvent × Except RunError Unit :=
  match o.readSpec with
  | Except.error e => ([], Except.error e)
  | Except.ok spec =>
    match prefetchRequiredInvoices spec bindle_settings.bindle_url o.fetch with
    | Except.error e => ([], Except.error e)
    | Except.ok external_invoices =>
      match o.expand spec external_invoices with
      | Except.error e => ([], Except.error e)
      | Except.ok invoice =>
        match o.write invoice with
        | Except.error e => ([RunEvent.writeInvoked], Except.error e)
        | Except.ok _ =>
          match bindle_settings with
          | BindleSettings.noPush _ =>
            match output_format with
            | OutputFormat.message =>
              match o.canonicalizeDest with
              | Except.error e => ([RunEvent.writeInvoked], Except.error e)
              | Except.ok _ => ([RunEvent.writeInvoked], Except.ok ())
            | _ => ([RunEvent.writeInvoked], Except.ok ())
          | BindleSettings.push _ =>
            match o.push invoice with
            | Except.error e =>
              ([RunEvent.writeInvoked, RunEvent.pushInvoked invoice.bindle.id],
                Except.error e)
            | Except.ok _ =>
              match notify_to with
              | none =>
                ([RunEvent.writeInvoked, RunEvent.pushInvoked invoice.bindle.id],
                  Except.ok ())
              | some _ =>
                match o.register invoice with
                | Except.error e =>
                  ([RunEvent.writeInvoked, RunEvent.pushInvoked invoice.bindle.id,
                    RunEvent.registerInvoked invoice.bindle.id], Except.error e)
                | Except.ok _ =>
                  ([RunEvent.writeInvoked, RunEvent.pushInvoked invoice.bindle.id,
                    RunEvent.registerInvoked invoice.bindle.id], Except.ok ())

/-- Embedding of the destination-directory selection (src/main.rs:153-156).
Paths are segment lists.  The `runEntropy` argument stands for the per-run
entropy (time or randomness) that a unique-per-run scheme would consume; the
code consults no such source — the default branch is the fixed path
`temp_dir/hippo-staging` (marked `TODO: make unpredictable?`) — so the
result ignores it. -/
def destination (runEntropy : Nat) (staging_dir_arg : Option String)
    (current_dir temp_dir : List String) : List String :=
  match staging_dir_arg with
  | some dir => current_dir ++ [dir]
  | none => temp_dir ++ ["hippo-staging"]

/-- Modelled from the spec: one hashed content occurrence entering the
Invoice Assembler (spec section 4.3) — the hash of the bytes, the declared
media type and label, and the group (named after the contributing component
entry, or the re-scoped group of an external manifest) whose membership it
contributes.  The `expander` module is not in the given tree. -/
structure ParcelSource where
  hash : String
  mediaType : String
  label : String
  group : String
deriving DecidableEq, Repr

/-- Modelled from the spec: a Parcel (spec section 3) — immutable descriptor
with content hash, declared media type, human label, and the set of group
names it belongs to (kept as the list of first occurrences). -/
structure Parcel where
  hash : String
  mediaType : String
  label : String
  memberOf : List String
deriving DecidableEq, Repr

/-- Modelled from the spec: the assembler's typed failure when one content
hash is observed with divergent metadata (spec sections 4.3 and 7,
HashConsistencyError). -/
inductive AssemblyError
  | hashConsistency (hash : String)
deriving DecidableEq, Repr

/-- Add a group name to a parcel's membership set (no duplicate entries). -/
def addGroup (p : Parcel) (g : String) : Parcel :=
  if g ∈ p.memberOf then p
  else { p with memberOf := p.memberOf ++ [g] }

/-- Modelled from the spec: merge one content occurrence into the working
parcel list (spec section 4.3).  The first occurrence of a hash wins as the
canonical label/media type; a later occurrence with the same hash but
different label or media type is a HashConsistencyError; an occurrence with
the same hash and same metadata merges its group membership. -/
def insertSource (s : ParcelSource) : List Parcel → Except AssemblyError (List Parcel)
  | [] => Except.ok [⟨s.hash, s.mediaType, s.label, [s.group]⟩]
  | p :: rest =>
    if p.hash = s.hash then
      if p.mediaType = s.mediaType ∧ p.label = s.label then
        Except.ok (addGroup p s.group :: rest)
      else Except.error (AssemblyError.hashConsistency s.hash)
    else Except.map (fun acc => p :: acc) (insertSource s rest)

/-- Modelled from the spec: merge all occurrences, in order, into the
deduplicated parcel list (spec section 4.3); assembly is all-or-nothing. -/
def assembleParcels (srcs : List ParcelSource) : Except AssemblyError (List Parcel) :=
  srcs.foldlM (fun acc s => insertSource s acc) []

/-- Embedding of `InvoiceVersioning` (declared in the `expander` module, not
in the given tree; its two variants are fixed by the CLI's
`--invoice-version` values at src/main.rs:51). -/
inductive InvoiceVersioning
  | dev
  | production
deriving DecidableEq, Repr

/-- Modelled from the spec: the Identity Versioner (spec section 4.4).
Production identity is the literal name/version; dev identity appends a
disambiguator derived from the current time, represented here as the
`stamp` string the run observed. -/
def versionedId (name version : String) :
    InvoiceVersioning → String → String
  | InvoiceVersioning.production, _ => name ++ "/" ++ version
  | InvoiceVersioning.dev, stamp => name ++ "/" ++ version ++ "-" ++ stamp

/-- Lexicographic comparison of character lists by code point; the
executable total order underlying the assembler's deterministic output
ordering. -/
def charsLe : List Char → List Char → Bool
  | [], _ => true
  | _ :: _, [] => false
  | c :: cs, d :: ds =>
    if c.toNat < d.toNat then true
    else if d.toNat < c.toNat then false
    else charsLe cs ds

/-- Byte-wise lexicographic order on strings, used for the deterministic
group-name and parcel-hash sorts (spec section 4.3 fixes only that the
ordering is a deterministic function of names and hashes). -/
def strLe (a b : String) : Bool := charsLe a.data b.data

/-- Modelled from the spec: the finished PackageManifest (spec section 3) —
identity string, ordered group names, ordered deduplicated parcels. -/
structure Manifest where
  id : String
  groups : List String
  parcels : List Parcel
deriving DecidableEq, Repr

/-- Render one parcel for serialization. -/
def serializeParcel (p : Parcel) : String :=
  p.hash ++ " " ++ p.mediaType ++ " " ++ p.label ++ " " ++
    String.intercalate "," p.memberOf

/-- Modelled from the spec: the serialized manifest document is a pure
function of the manifest value. -/
def serializeManifest (m : Manifest) : String :=
  m.id ++ "\n" ++ String.intercalate "\n" m.groups ++ "\n" ++
    String.intercalate "\n" (m.parcels.map serializeParcel)

/-- Modelled from the spec: expansion (spec section 4.3) — assemble the
deduplicated parcels from all content occurrences, sort groups by name and
parcels by hash for deterministic output, and assign the identity via the
Versioner.  `groups` lists the group names declared by the spec's entries;
`stamp` is the run's time-derived disambiguator, consulted only by the dev
policy. -/
def expandModel (name version : String) (groups : List String)
    (srcs : List ParcelSource) (versioning : InvoiceVersioning)
    (stamp : String) : Except AssemblyError Manifest :=
  Except.map
    (fun ps =>
      ⟨versionedId name version versioning stamp,
        groups.insertionSort (fun a b => strLe a b = true),
        ps.insertionSort (fun a b => strLe a.hash b.hash = true)⟩)
    (assembleParcels srcs)

/-- Modelled from the spec: the fixed, well-known manifest path inside the
staging directory (spec sections 3 and 4.5); `bindle_writer.rs` is not in
the given tree.  Paths are segment lists relative to the destination. -/
def manifestPath : List String := ["invoice.toml"]

/-- Modelled from the spec: the content-hash-addressed path of a parcel's
bytes inside the staging directory. -/
def parcelPath (hash : String) : List String := ["parcels", hash ++ ".dat"]

/-- Modelled from the spec: failure of one parcel copy in the Staging
Writer (an IOError in the spec's taxonomy, section 7). -/
inductive WriteError
  | copyFailed (hash : String)
deriving DecidableEq, Repr

/-- Modelled from the spec: step 2 of the Staging Writer (spec section
4.5).  The destination directory is the list of paths present, in creation
order; `copyOk` says whether copying a given parcel's bytes would succeed.
Each parcel's destination path is computed from its hash; an existing file
at that path is skipped; otherwise the bytes are copied, and a copy failure
aborts immediately, leaving the paths written so far. -/
def writeParcelsRun (copyOk : String → Bool) (dest : List (List String)) :
    List Parcel → List (List String) × Option WriteError
  | [] => (dest, none)
  | p :: rest =>
    if parcelPath p.hash ∈ dest then writeParcelsRun copyOk dest rest
    else if copyOk p.hash then
      writeParcelsRun copyOk (dest ++ [parcelPath p.hash]) rest
    else (dest, some (WriteError.copyFailed p.hash))

/-- Modelled from the spec: the Staging Writer (spec section 4.5).  Copy
every parcel (step 2); only if all copies succeeded, serialize the manifest
document and atomically place it at the fixed manifest path (step 3).  A
parcel-copy failure aborts before step 3 begins. -/
def writeBindleRun (copyOk : String → Bool) (dest : List (List String))
    (m : Manifest) : List (List String) × Option WriteError :=
  match writeParcelsRun copyOk dest m.parcels with
  | (d, some e) => (d, some e)
  | (d, none) => (d ++ [manifestPath], none)

/-- Reduction of a machine word to 32 bits. -/
def mod32 (x : Nat) : Nat := x % 4294967296

/-- Right rotation of a 32-bit word. -/
def rotr32 (x n : Nat) : Nat := mod32 ((x >>> n) ||| (x <<< (32 - n)))

/-- SHA-256 big sigma-0 function. -/
def bigSigma0 (x : Nat) : Nat := rotr32 x 2 ^^^ rotr32 x 13 ^^^ rotr32 x 22

/-- SHA-256 big sigma-1 function. -/
def bigSigma1 (x : Nat) : Nat := rotr32 x 6 ^^^ rotr32 x 11 ^^^ rotr32 x 25

/-- SHA-256 small sigma-0 function. -/
def smallSigma0 (x : Nat) : Nat := rotr32 x 7 ^^^ rotr32 x 18 ^^^ (x >>> 3)

/-- SHA-256 small sigma-1 function. -/
def smallSigma1 (x : Nat) : Nat := rotr32 x 17 ^^^ rotr32 x 19 ^^^ (x >>> 10)

/-- SHA-256 choice function (32-bit complement written as xor with all-ones). -/
def chWord (x y z : Nat) : Nat := (x &&& y) ^^^ ((x ^^^ 4294967295) &&& z)

/-- SHA-256 majority function. -/
def majWord (x y z : Nat) : Nat := (x &&& y) ^^^ (x &&& z) ^^^ (y &&& z)

/-- The eight 32-bit words of a SHA-256 hash state. -/
structure Sha256State where
  a : Nat
  b : Nat
  c : Nat
  d : Nat
  e : Nat
  f : Nat
  g : Nat
  h : Nat
deriving DecidableEq, Repr

/-- Initial SHA-256 hash state (FIPS 180-4). -/
def sha256InitState : Sha256State :=
  ⟨1779033703,
    3144134277,
    1013904242,
    2773480762,
    1359893119,
    2600822924,
    528734635,
    1541459225⟩

/-- The 64 SHA-256 round constants (FIPS 180-4). -/
def sha256K : List Nat :=
  [1116352408, 1899447441, 3049323471, 3921009573, 961987163,
   1508970993, 2453635748, 2870763221, 3624381080, 310598401,
   607225278, 1426881987, 1925078388, 2162078206, 2614888103,
   3248222580, 3835390401, 4022224774, 264347078, 604807628,
   770255983, 1249150122, 1555081692, 1996064986, 2554220882,
   2821834349, 2952996808, 3210313671, 3336571891, 3584528711,
   113926993, 338241895, 666307205, 773529912, 1294757372,
   1396182291, 1695183700, 1986661051, 2177026350, 2456956037,
   2730485921, 2820302411, 3259730800, 3345764771, 3516065817,
   3600352804, 4094571909, 275423344, 430227734, 506948616,
   659060556, 883997877, 958139571, 1322822218, 1537002063,
   1747873779, 1955562222, 2024104815, 2227730452, 2361852424,
   2428436474, 2756734187, 3204031479, 3329325298]

/-- Group bytes into big-endian 32-bit words. -/
def wordsOfBytes : List Nat → List Nat
  | b0 :: b1 :: b2 :: b3 :: rest =>
    (b0 * 16777216 + b1 * 65536 + b2 * 256 + b3) :: wordsOfBytes rest
  | _ => []

/-- Extend the 16-word message schedule by `count` further words. -/
def extendWords (w : List Nat) : Nat → List Nat
  | 0 => w
  | count + 1 =>
    let i := w.length
    let next := mod32 (smallSigma1 (w.getD (i - 2) 0) + w.getD (i - 7) 0 +
      smallSigma0 (w.getD (i - 15) 0) + w.getD (i - 16) 0)
    extendWords (w ++ [next]) count

/-- One SHA-256 compression round, consuming a (round constant, schedule
word) pair. -/
def compressStep (st : Sha256State) (kw : Nat × Nat) : Sha256State :=
  let t1 := mod32 (st.h + bigSigma1 st.e + chWord st.e st.f st.g + kw.1 + kw.2)
  let t2 := mod32 (bigSigma0 st.a + majWord st.a st.b st.c)
  ⟨mod32 (t1 + t2), st.a, st.b, st.c, mod32 (st.d + t1), st.e, st.f, st.g⟩

/-- Process one padded 64-byte block into the running hash state. -/
def processBlock (st : Sha256State) (block : List Nat) : Sha256State :=
  let w := extendWords (wordsOfBytes block) 48
  let r := (sha256K.zip w).foldl compressStep st
  ⟨mod32 (st.a + r.a), mod32 (st.b + r.b), mod32 (st.c + r.c), mod32 (st.d + r.d),
    mod32 (st.e + r.e), mod32 (st.f + r.f), mod32 (st.g + r.g), mod32 (st.h + r.h)⟩

/-- The eight big-endian bytes of a 64-bit length field. -/
def bytesOfNat64 (n : Nat) : List Nat :=
  [n / 72057594037927936 % 256, n / 281474976710656 % 256,
   n / 1099511627776 % 256, n / 4294967296 % 256,
   n / 16777216 % 256, n / 65536 % 256, n / 256 % 256, n % 256]

/-- SHA-256 padding: a 0x80 byte, zero bytes up to 56 mod 64, then the
original bit length as a 64-bit big-endian field. -/
def padMessage (msg : List Nat) : List Nat :=
  let padZeros := (120 - ((msg.length + 1) % 64)) % 64
  msg ++ [128] ++ List.replicate padZeros 0 ++ bytesOfNat64 (msg.length * 8)

/-- Split a byte list into 64-byte blocks; the fuel bounds the recursion
and is at least the block count whenever it is at least the list length. -/
def splitBlocksAux : Nat → List Nat → List (List Nat)
  | 0, _ => []
  | _, [] => []
  | fuel + 1, b :: rest => ((b :: rest).take 64) :: splitBlocksAux fuel ((b :: rest).drop 64)

/-- Split a padded message into 64-byte blocks. -/
def splitBlocks (msg : List Nat) : List (List Nat) := splitBlocksAux msg.length msg

/-- Lower-case hex digit for a value below 16. -/
def hexChar (n : Nat) : Char := "0123456789abcdef".data.getD n '0'

/-- Eight lower-case hex digits of a 32-bit word, most significant first. -/
def hexOfWord (w : Nat) : List Char :=
  [hexChar (w / 268435456 % 16), hexChar (w / 16777216 % 16),
   hexChar (w / 1048576 % 16), hexChar (w / 65536 % 16),
   hexChar (w / 4096 % 16), hexChar (w / 256 % 16),
   hexChar (w / 16 % 16), hexChar (w % 16)]

/-- Modelled from the spec: the Content Hasher's digest (spec section 4.2)
is the SHA-256 of the content bytes, rendered as 64 lower-case hex digits;
the hashing module is not in the given tree, and the spec fixes the
algorithm as SHA-256 of the exact bytes. -/
def sha256hex (msg : List Nat) : String :=
  let st := (splitBlocks (padMessage msg)).foldl processBlock sha256InitState
  String.mk (hexOfWord st.a ++ hexOfWord st.b ++ hexOfWord st.c ++ hexOfWord st.d ++
    hexOfWord st.e ++ hexOfWord st.f ++ hexOfWord st.g ++ hexOfWord st.h)

/-- The ASCII byte sequence of a string of ASCII characters. -/
def asciiBytes (s : String) : List Nat := s.data.map Char.toNat

/-- First parcel in the working list carrying the given content hash. -/
def findByHash : List Parcel → String → Option Parcel
  | [], _ => none
  | p :: rest, h => if p.hash = h then some p else findByHash rest h

/-- Invariant of the assembler's merge loop after the occurrences `seen`
have been folded into the working list `acc`: hashes are pairwise distinct,
the parcel found for a hash carries that hash and exactly the group
memberships contributed by the seen occurrences of that hash, and every
seen occurrence has a parcel for its hash. -/
def assemblyInvariant (seen : List ParcelSource) (acc : List Parcel) : Prop :=
  (acc.map Parcel.hash).Nodup
  ∧ (∀ h p, findByHash acc h = some p → p.hash = h ∧
      ∀ g, g ∈ p.memberOf ↔ ∃ t ∈ seen, t.hash = h ∧ t.group = g)
  ∧ (∀ t ∈ seen, ∃ p, findByHash acc t.hash = some p)

/-- A one-entry spec with no external reference. -/
def specNoExternal : HippoFacts := ⟨[⟨none⟩]⟩

/-- A one-entry spec referencing the external bindle shared/1.0.0. -/
def specWithExternal : HippoFacts := ⟨[⟨some ⟨"shared/1.0.0"⟩⟩]⟩

/-- A spec referencing the same external bindle twice. -/
def specDupExternal : HippoFacts :=
  ⟨[⟨some ⟨"shared/1.0.0"⟩⟩, ⟨none⟩, ⟨some ⟨"shared/1.0.0"⟩⟩]⟩

/-- A fetch oracle that succeeds with an invoice named after the identity. -/
def fetchConst : String → Except RunError Invoice :=
  fun k => Except.ok ⟨⟨k⟩⟩

/-- Collaborator results for a run whose expansion fails. -/
def oraclesExpandFailing : RunOracles :=
  ⟨Except.ok specNoExternal, fetchConst,
    fun _ _ => Except.error (RunError.collaborator "expansion failed"),
    fun _ => Except.ok (), fun _ => Except.ok (), fun _ => Except.ok (),
    Except.ok "dest"⟩

/-- Collaborator results for a run in which every step succeeds. -/
def oraclesAllOk : RunOracles :=
  ⟨Except.ok specNoExternal, fetchConst,
    fun _ _ => Except.ok ⟨⟨"app/1.0.0"⟩⟩,
    fun _ => Except.ok (), fun _ => Except.ok (), fun _ => Except.ok (),
    Except.ok "dest"⟩

/-- Three content occurrences: two byte-identical ones ("h1") contributed by
groups g1 and g2, and a distinct one ("h2") from g1. -/
def sampleSources : List ParcelSource :=
  [⟨"h1", "application/wasm", "a.wasm", "g1"⟩,
   ⟨"h1", "application/wasm", "a.wasm", "g2"⟩,
   ⟨"h2", "application/wasm", "b.wasm", "g1"⟩]

/-- A two-parcel manifest used to exercise the staging writer. -/
def sampleManifestTwo : Manifest :=
  ⟨"app/1.0.0", ["g1"],
    [⟨"h1", "application/wasm", "a.wasm", ["g1"]⟩,
     ⟨"h2", "application/wasm", "b.wasm", ["g1"]⟩]⟩

/-- C10: `OutputFormat::parse` is total over all strings: it returns the
`none` variant for exactly the input "none", the `id` variant for exactly
the input "id", and the `message` variant for every other string, including
strings outside the advertised value set. -/
theorem outputFormat_parse_total (s : String) :
    (OutputFormat.parse s = OutputFormat.none ↔ s = "none")
    ∧ (OutputFormat.parse s = OutputFormat.id ↔ s = "id")
    ∧ (OutputFormat.parse s = OutputFormat.message ↔ (s ≠ "none" ∧ s ≠ "id")) := by
  unfold OutputFormat.parse
  by_cases h1 : s = "none" <;> by_cases h2 : s = "id" <;> simp [h1, h2]

/-- C7 counterexample: two runs without an explicit destination directory,
distinguished by different per-run entropy, still resolve to the same
destination path — the default is not uniquely generated per run. -/
theorem default_destination_collision :
    destination 0 none ["cwd"] ["tmp"] = destination 1 none ["cwd"] ["tmp"] := rfl

/-- C7 amended: when no explicit destination directory is given, the run
uses the fixed shared path temp_dir/hippo-staging, independent of any
per-run entropy, so all runs without an explicit destination target the
same directory. -/
theorem default_destination_fixed (e₁ e₂ : Nat) (cd td : List String) :
    destination e₁ none cd td = td ++ ["hippo-staging"]
    ∧ destination e₁ none cd td = destination e₂ none cd td :=
  ⟨rfl, rfl⟩

set_option maxRecDepth 10000 in
/-- C8 counterexample: the content hash of the ASCII bytes of "hello" is
not the 63-digit hex string quoted by the claim. -/
theorem sha256_hello_not_truncated_digest :
    sha256hex (asciiBytes "hello")
      ≠ "2cf24dba5fb0a30e26e83b2ac5b9e29e1b161e5c1fa7425e73043362938b982" := by
  decide

set_option maxRecDepth 10000 in
/-- C8 amended: hashing is deterministic — hashing the same content twice
yields the same hash — and for the ASCII bytes of "hello" the Content
Hasher's output equals the full 64-digit SHA-256 hex digest
2cf24dba5fb0a30e26e83b2ac5b9e29e1b161e5c1fa7425e73043362938b9824. -/
theorem sha256_hello_digest :
    (∀ content : List Nat, sha256hex content = sha256hex content)
    ∧ sha256hex (asciiBytes "hello")
      = "2cf24dba5fb0a30e26e83b2ac5b9e29e1b161e5c1fa7425e73043362938b9824" :=
  ⟨fun _ => rfl, by decide⟩

/-- C5: a spec with at least one external reference makes prefetching fail
with the missing-Bindle-URL error when no server URL is supplied, whatever
the network would answer; a spec with no external references makes
prefetching succeed with the empty map for every URL (including none) and
every fetch oracle — the network is never consulted. -/
theorem prefetch_url_requirement (spec : HippoFacts) :
    ((∃ e ∈ spec.entries, (external_bindle_id e).isSome) →
      ∀ fetch, prefetchRequiredInvoices spec none fetch
        = Except.error RunError.noBindleUrl)
    ∧ ((∀ e ∈ spec.entries, external_bindle_id e = none) →
      ∀ url fetch, prefetchRequiredInvoices spec url fetch = Except.ok []) := by
  constructor
  · rintro ⟨e, he, hsome⟩ fetch
    obtain ⟨v, hv⟩ := Option.isSome_iff_exists.mp hsome
    have hmem : v ∈ spec.entries.filterMap external_bindle_id :=
      List.mem_filterMap.mpr ⟨e, he, hv⟩
    have hne : ¬ (spec.entries.filterMap external_bindle_id).isEmpty := by
      intro hemp
      rw [List.isEmpty_iff] at hemp
      rw [hemp] at hmem
      exact absurd hmem (List.not_mem_nil v)
    simp only [prefetchRequiredInvoices]
    rw [if_neg hne]
  · intro hall url fetch
    have hnil : spec.entries.filterMap external_bindle_id = [] :=
      List.filterMap_eq_nil_iff.mpr hall
    simp only [prefetchRequiredInvoices]
    rw [hnil]
    rfl

/-- C5 witness: the two parts of `prefetch_url_requirement` at concrete
specs — one with an external reference and no URL, one with none. -/
theorem prefetch_url_requirement_witness :
    prefetchRequiredInvoices specWithExternal none fetchConst
      = Except.error RunError.noBindleUrl
    ∧ prefetchRequiredInvoices specNoExternal none fetchConst = Except.ok [] := by
  constructor
  · exact (prefetch_url_requirement specWithExternal).1
      ⟨⟨some ⟨"shared/1.0.0"⟩⟩, by simp [specWithExternal], by decide⟩ fetchConst
  · exact (prefetch_url_requirement specNoExternal).2
      (by intro e he; simp [specNoExternal] at he; rw [he]; rfl) none fetchConst

/-- C4: whenever expansion returns an error (the spec having been read and
the external invoices prefetched), the run returns that very error with an
empty collaborator trace — the staging writer, the pusher and the registrar
are never invoked, so the destination directory is untouched and no
manifest document is written. -/
theorem run_aborts_on_expansion_error (o : RunOracles) (fmt : OutputFormat)
    (st : BindleSettings) (n : Option ConnectionInfo) (spec : HippoFacts)
    (invs : List (String × Invoice)) (e : RunError)
    (hr : o.readSpec = Except.ok spec)
    (hp : prefetchRequiredInvoices spec st.bindle_url o.fetch = Except.ok invs)
    (he : o.expand spec invs = Except.error e) :
    runModel o fmt st n = ([], Except.error e) := by
  unfold runModel
  rw [hr]
  simp only [hp, he]

/-- C4 witness: a run whose expansion oracle fails returns that failure
with an empty trace. -/
theorem run_aborts_on_expansion_error_witness :
    runModel oraclesExpandFailing OutputFormat.message (BindleSettings.noPush none) none
      = ([], Except.error (RunError.collaborator "expansion failed")) :=
  run_aborts_on_expansion_error oraclesExpandFailing OutputFormat.message
    (BindleSettings.noPush none) none specNoExternal []
    (RunError.collaborator "expansion failed") rfl rfl rfl

/-- Characterization of a run's collaborator trace: it is empty, or just the
writer, or — only under push settings and after a successful write — the
writer followed by the pusher, optionally followed by the registrar when
the push succeeded, always on one and the same invoice identity. -/
theorem runModel_cases (o : RunOracles) (fmt : OutputFormat)
    (st : BindleSettings) (n : Option ConnectionInfo) :
    (runModel o fmt st n).1 = []
    ∨ (runModel o fmt st n).1 = [RunEvent.writeInvoked]
    ∨ (∃ i, o.write ⟨⟨i⟩⟩ = Except.ok () ∧ (∃ u, st = BindleSettings.push u) ∧
        ((runModel o fmt st n).1 = [RunEvent.writeInvoked, RunEvent.pushInvoked i]
         ∨ (o.push ⟨⟨i⟩⟩ = Except.ok () ∧
            (runModel o fmt st n).1
              = [RunEvent.writeInvoked, RunEvent.pushInvoked i,
                 RunEvent.registerInvoked i]))) := by
  unfold runModel
  cases hr : o.readSpec with
  | error e => exact Or.inl rfl
  | ok spec =>
    cases hp : prefetchRequiredInvoices spec st.bindle_url o.fetch with
    | error e => simp [hp]
    | ok invs =>
      cases he : o.expand spec invs with
      | error e => simp [hp, he]
      | ok invoice =>
        cases hw : o.write invoice with
        | error e => simp [hp, he, hw]
        | ok u0 =>
          cases st with
          | noPush url =>
            cases fmt with
            | message =>
              cases hc : o.canonicalizeDest with
              | error e => simp [hp, he, hw, hc]
              | ok d => simp [hp, he, hw, hc]
            | none => simp [hp, he, hw]
            | id => simp [hp, he, hw]
          | push url =>
            cases hpu : o.push invoice with
            | error e =>
              refine Or.inr (Or.inr ⟨invoice.bindle.id, hw, ⟨url, rfl⟩, Or.inl ?_⟩)
              simp [hp, he, hw, hpu]
            | ok u1 =>
              cases n with
              | none =>
                refine Or.inr (Or.inr ⟨invoice.bindle.id, hw, ⟨url, rfl⟩, Or.inl ?_⟩)
                simp [hp, he, hw, hpu]
              | some ci =>
                cases hreg : o.register invoice with
                | error e =>
                  refine Or.inr (Or.inr
                    ⟨invoice.bindle.id, hw, ⟨url, rfl⟩, Or.inr ⟨hpu, ?_⟩⟩)
                  simp [hp, he, hw, hpu, hreg]
                | ok u2 =>
                  refine Or.inr (Or.inr
                    ⟨invoice.bindle.id, hw, ⟨url, rfl⟩, Or.inr ⟨hpu, ?_⟩⟩)
                  simp [hp, he, hw, hpu, hreg]

/-- C6: the registrar is invoked only if the pusher was invoked for the
same invoice identity and returned success; the pusher is invoked only
after the staging writer succeeded (the trace starts with the write, then
the push); and under no-push settings neither the pusher nor the registrar
is ever invoked. -/
theorem run_collaborator_ordering (o : RunOracles) (fmt : OutputFormat)
    (st : BindleSettings) (n : Option ConnectionInfo) :
    (∀ i, RunEvent.registerInvoked i ∈ (runModel o fmt st n).1 →
      RunEvent.pushInvoked i ∈ (runModel o fmt st n).1 ∧ o.push ⟨⟨i⟩⟩ = Except.ok ())
    ∧ (∀ i, RunEvent.pushInvoked i ∈ (runModel o fmt st n).1 →
      o.write ⟨⟨i⟩⟩ = Except.ok () ∧
      ∃ rest, (runModel o fmt st n).1
        = RunEvent.writeInvoked :: RunEvent.pushInvoked i :: rest)
    ∧ (∀ u, st = BindleSettings.noPush u →
      ∀ i, RunEvent.pushInvoked i ∉ (runModel o fmt st n).1
        ∧ RunEvent.registerInvoked i ∉ (runModel o fmt st n).1) := by
  rcases runModel_cases o fmt st n with h | h | ⟨i, hw, ⟨u, hst⟩, hcase⟩
  · refine ⟨fun j hj => ?_, fun j hj => ?_, fun u' hu' j => ?_⟩
    · rw [h] at hj; exact absurd hj (List.not_mem_nil _)
    · rw [h] at hj; exact absurd hj (List.not_mem_nil _)
    · rw [h]; exact ⟨List.not_mem_nil _, List.not_mem_nil _⟩
  · refine ⟨fun j hj => ?_, fun j hj => ?_, fun u' hu' j => ?_⟩
    · rw [h] at hj; simp at hj
    · rw [h] at hj; simp at hj
    · rw [h]; constructor <;> simp
  · rcases hcase with htr | ⟨hpush, htr⟩
    · refine ⟨fun j hj => ?_, fun j hj => ?_, fun u' hu' j => ?_⟩
      · rw [htr] at hj; simp at hj
      · rw [htr] at hj
        have hji : j = i := by simpa using hj
        subst hji
        exact ⟨hw, [], by rw [htr]⟩
      · rw [hst] at hu'; exact BindleSettings.noConfusion hu'
    · refine ⟨fun j hj => ?_, fun j hj => ?_, fun u' hu' j => ?_⟩
      · rw [htr] at hj
        have hji : j = i := by simpa using hj
        subst hji
        refine ⟨?_, hpush⟩
        rw [htr]; simp
      · rw [htr] at hj
        have hji : j = i := by simpa using hj
        subst hji
        exact ⟨hw, [RunEvent.registerInvoked j], by rw [htr]⟩
      · rw [hst] at hu'; exact BindleSettings.noConfusion hu'

/-- C6 witness: in a concrete all-successful push run the pusher and
registrar conclusions hold at the pushed identity, and in a concrete
no-push run neither is invoked. -/
theorem run_collaborator_ordering_witness :
    (RunEvent.pushInvoked "app/1.0.0"
        ∈ (runModel oraclesAllOk OutputFormat.message (BindleSettings.push "u")
            (some ⟨"h"⟩)).1
      ∧ oraclesAllOk.push ⟨⟨"app/1.0.0"⟩⟩ = Except.ok ())
    ∧ (oraclesAllOk.write ⟨⟨"app/1.0.0"⟩⟩ = Except.ok ()
      ∧ ∃ rest, (runModel oraclesAllOk OutputFormat.message (BindleSettings.push "u")
            (some ⟨"h"⟩)).1
          = RunEvent.writeInvoked :: RunEvent.pushInvoked "app/1.0.0" :: rest)
    ∧ (RunEvent.pushInvoked "app/1.0.0"
        ∉ (runModel oraclesAllOk OutputFormat.id (BindleSettings.noPush none) none).1
      ∧ RunEvent.registerInvoked "app/1.0.0"
        ∉ (runModel oraclesAllOk OutputFormat.id (BindleSettings.noPush none) none).1) :=
  ⟨(run_collaborator_ordering oraclesAllOk OutputFormat.message (BindleSettings.push "u")
      (some ⟨"h"⟩)).1 "app/1.0.0" (by decide),
   (run_collaborator_ordering oraclesAllOk OutputFormat.message (BindleSettings.push "u")
      (some ⟨"h"⟩)).2.1 "app/1.0.0" (by decide),
   (run_collaborator_ordering oraclesAllOk OutputFormat.id (BindleSettings.noPush none)
      none).2.2 none rfl "app/1.0.0"⟩

/-- Lookup after insert: the inserted key maps to the inserted value, every
other key is unaffected. -/
theorem mapLookup_mapInsert (m : List (String × Invoice)) (k k' : String) (v : Invoice) :
    mapLookup (mapInsert m k v) k' = if k = k' then some v else mapLookup m k' := by
  induction m with
  | nil => simp [mapInsert, mapLookup]
  | cons hd tl ih =>
    obtain ⟨k₀, v₀⟩ := hd
    by_cases h0 : k₀ = k
    · subst h0
      by_cases h1 : k₀ = k'
      · subst h1; simp [mapInsert, mapLookup]
      · simp [mapInsert, mapLookup, h1]
    · by_cases h1 : k₀ = k'
      · subst h1
        have hne : ¬ k = k₀ := fun hh => h0 hh.symm
        simp [mapInsert, mapLookup, h0, hne]
      · simp [mapInsert, mapLookup, h0, h1, ih]

/-- Keys after insert: unchanged when the key was present, appended
otherwise. -/
theorem mapInsert_keys (m : List (String × Invoice)) (k : String) (v : Invoice) :
    (mapInsert m k v).map Prod.fst
      = if k ∈ m.map Prod.fst then m.map Prod.fst else m.map Prod.fst ++ [k] := by
  induction m with
  | nil => simp [mapInsert]
  | cons hd tl ih =>
    obtain ⟨k₀, v₀⟩ := hd
    by_cases h0 : k₀ = k
    · subst h0; simp [mapInsert]
    · have hne : ¬ k = k₀ := fun hh => h0 hh.symm
      by_cases h1 : k ∈ tl.map Prod.fst <;>
        simp [mapInsert, h0, ih, h1, hne]

/-- Insertion preserves distinctness of the keys. -/
theorem mapInsert_keys_nodup (m : List (String × Invoice)) (k : String) (v : Invoice)
    (h : (m.map Prod.fst).Nodup) : ((mapInsert m k v).map Prod.fst).Nodup := by
  rw [mapInsert_keys]
  by_cases hk : k ∈ m.map Prod.fst
  · simpa [hk] using h
  · simp [hk, List.nodup_append, h]

/-- Invariant of the prefetch fetch loop on success: the final map's key
set is the starting key set plus the processed references, every binding
was produced by the fetch oracle, and key distinctness is preserved. -/
theorem fetchAllInvoices_ok (fetch : String → Except RunError Invoice)
    (refs : List String) (map0 m : List (String × Invoice))
    (h : fetchAllInvoices fetch refs map0 = Except.ok m) :
    (∀ k, (mapLookup m k).isSome ↔ ((mapLookup map0 k).isSome ∨ k ∈ refs))
    ∧ ((∀ k v, mapLookup map0 k = some v → fetch k = Except.ok v) →
        ∀ k v, mapLookup m k = some v → fetch k = Except.ok v)
    ∧ ((map0.map Prod.fst).Nodup → (m.map Prod.fst).Nodup) := by
  induction refs generalizing map0 with
  | nil =>
    simp only [fetchAllInvoices, Except.ok.injEq] at h
    subst h
    simp
  | cons r rest ih =>
    simp only [fetchAllInvoices] at h
    cases hf : fetch r with
    | error e => rw [hf] at h; exact absurd h (by simp)
    | ok inv =>
      rw [hf] at h
      obtain ⟨h1, h2, h3⟩ := ih (mapInsert map0 r inv) h
      refine ⟨?_, ?_, ?_⟩
      · intro k
        rw [h1 k, mapLookup_mapInsert]
        by_cases hk : r = k
        · subst hk; simp
        · have hne : ¬ k = r := fun hh => hk hh.symm
          simp [hk, List.mem_cons, hne]
      · intro hbase k v hkv
        refine h2 (fun k' v' hk'v' => ?_) k v hkv
        rw [mapLookup_mapInsert] at hk'v'
        by_cases hk' : r = k'
        · subst hk'
          rw [if_pos rfl] at hk'v'
          injection hk'v' with hv'
          rw [← hv']
          exact hf
        · rw [if_neg hk'] at hk'v'
          exact hbase k' v' hk'v'
      · intro hnd
        exact h3 (mapInsert_keys_nodup map0 r inv hnd)

/-- C9: a successful prefetch returns a map whose keys are pairwise
distinct, whose key set is exactly the set of external bindle identities
referenced by the spec's entries (duplicate references collapse to one
key), and in which every key maps to the invoice the fetch oracle returns
for that identity. -/
theorem prefetch_invoice_map_keys (spec : HippoFacts) (url : Option String)
    (fetch : String → Except RunError Invoice) (m : List (String × Invoice))
    (h : prefetchRequiredInvoices spec url fetch = Except.ok m) :
    ((m.map Prod.fst).Nodup)
    ∧ (∀ k, (mapLookup m k).isSome ↔ k ∈ spec.entries.filterMap external_bindle_id)
    ∧ (∀ k v, mapLookup m k = some v → fetch k = Except.ok v) := by
  simp only [prefetchRequiredInvoices] at h
  by_cases hemp : (spec.entries.filterMap external_bindle_id).isEmpty
  · rw [if_pos hemp] at h
    injection h with h'
    subst h'
    have hnil := List.isEmpty_iff.mp hemp
    simp [mapLookup, hnil]
  · rw [if_neg hemp] at h
    cases url with
    | none => exact absurd h (by simp)
    | some u =>
      obtain ⟨h1, h2, h3⟩ := fetchAllInvoices_ok fetch _ [] m h
      refine ⟨h3 (by simp), fun k => ?_,
        h2 (by intro k v hkv; simp [mapLookup] at hkv)⟩
      rw [h1 k]
      simp [mapLookup]

/-- C9 witness: prefetching a spec that references shared/1.0.0 twice
yields the one-entry map, whose characterization follows from
`prefetch_invoice_map_keys` at that concrete run. -/
theorem prefetch_invoice_map_keys_witness :
    ((([("shared/1.0.0", (⟨⟨"shared/1.0.0"⟩⟩ : Invoice))]).map Prod.fst).Nodup)
    ∧ (∀ k, (mapLookup [("shared/1.0.0", ⟨⟨"shared/1.0.0"⟩⟩)] k).isSome
        ↔ k ∈ specDupExternal.entries.filterMap external_bindle_id)
    ∧ (∀ k v, mapLookup [("shared/1.0.0", ⟨⟨"shared/1.0.0"⟩⟩)] k = some v
        → fetchConst k = Except.ok v) :=
  prefetch_invoice_map_keys specDupExternal (some "url") fetchConst
    [("shared/1.0.0", ⟨⟨"shared/1.0.0"⟩⟩)] rfl

/-- On a parcel-copy failure, every path present afterwards was either
present before or is the content-addressed path of one of the manifest's
parcels. -/
theorem writeParcelsRun_error (copyOk : String → Bool) (dest : List (List String))
    (parcels : List Parcel) (d : List (List String)) (e : WriteError)
    (h : writeParcelsRun copyOk dest parcels = (d, some e)) :
    ∀ q ∈ d, q ∈ dest ∨ ∃ p ∈ parcels, q = parcelPath p.hash := by
  induction parcels generalizing dest with
  | nil =>
    simp only [writeParcelsRun] at h
    exact absurd h (by simp)
  | cons p rest ih =>
    simp only [writeParcelsRun] at h
    by_cases hmem : parcelPath p.hash ∈ dest
    · rw [if_pos hmem] at h
      intro q hq
      rcases ih dest h q hq with hin | ⟨p', hp', hq'⟩
      · exact Or.inl hin
      · exact Or.inr ⟨p', List.mem_cons_of_mem p hp', hq'⟩
    · rw [if_neg hmem] at h
      by_cases hc : copyOk p.hash
      · rw [if_pos hc] at h
        intro q hq
        rcases ih (dest ++ [parcelPath p.hash]) h q hq with hin | ⟨p', hp', hq'⟩
        · rcases List.mem_append.mp hin with h1 | h2
          · exact Or.inl h1
          · refine Or.inr ⟨p, List.mem_cons_self p rest, ?_⟩
            simpa using h2
        · exact Or.inr ⟨p', List.mem_cons_of_mem p hp', hq'⟩
      · rw [if_neg hc] at h
        injection h with hd he'
        subst hd
        intro q hq
        exact Or.inl hq

/-- C2: if any parcel copy fails, the staging writer aborts with that error
before manifest serialization begins: provided the destination held no
manifest document beforehand, it holds none afterwards, and every path it
does hold was either already present or is a parcel path. -/
theorem write_failure_leaves_no_manifest (copyOk : String → Bool)
    (dest : List (List String)) (m : Manifest) (d : List (List String))
    (e : WriteError)
    (hinit : manifestPath ∉ dest)
    (h : writeBindleRun copyOk dest m = (d, some e)) :
    manifestPath ∉ d
    ∧ ∀ q ∈ d, q ∈ dest ∨ ∃ p ∈ m.parcels, q = parcelPath p.hash := by
  unfold writeBindleRun at h
  cases hw : writeParcelsRun copyOk dest m.parcels with
  | mk d' oe =>
    rw [hw] at h
    cases oe with
    | none => exact absurd h (by simp)
    | some e' =>
      simp only [Prod.mk.injEq, Option.some.injEq] at h
      obtain ⟨hd, he'⟩ := h
      subst hd
      have hsub := writeParcelsRun_error copyOk dest m.parcels d' e' hw
      refine ⟨?_, hsub⟩
      intro hmem
      rcases hsub manifestPath hmem with hin | ⟨p, _, heq⟩
      · exact hinit hin
      · simpa [manifestPath, parcelPath] using congrArg List.length heq

/-- C2 witness: with a destination that holds no manifest, a writer run in
which the first parcel copies and the second fails leaves the copied parcel
but no manifest document. -/
theorem write_failure_leaves_no_manifest_witness :
    (manifestPath ∉ ([] : List (List String)))
    ∧ (manifestPath ∉ [parcelPath "h1"]
      ∧ ∀ q ∈ [parcelPath "h1"],
          q ∈ ([] : List (List String)) ∨ ∃ p ∈ sampleManifestTwo.parcels, q = parcelPath p.hash) :=
  ⟨by decide,
   write_failure_leaves_no_manifest (fun h => h == "h1") [] sampleManifestTwo
     [parcelPath "h1"] (WriteError.copyFailed "h2") (by decide) rfl⟩

/-- Appending to a common prefix is injective on strings. -/
theorem string_append_cancel_left (a b c : String) (h : a ++ b = a ++ c) : b = c := by
  have hd := congrArg String.data h
  rw [String.data_append, String.data_append] at hd
  exact String.ext (List.append_cancel_left hd)

/-- C3: for a fixed spec and resolved content, expansion under the
production policy is bit-for-bit independent of the run's time stamp (equal
results, equal serialized manifests); under the dev policy two runs agree
on groups and parcels (content and ordering) and differ in the identity
string whenever their stamps differ; and across any two policies the
groups and parcels agree — the policy influences only the identity
string. -/
theorem versioning_affects_only_identity (name version : String)
    (groups : List String) (srcs : List ParcelSource) (s₁ s₂ : String) :
    (expandModel name version groups srcs InvoiceVersioning.production s₁
      = expandModel name version groups srcs InvoiceVersioning.production s₂)
    ∧ (∀ m₁ m₂,
        expandModel name version groups srcs InvoiceVersioning.production s₁ = Except.ok m₁ →
        expandModel name version groups srcs InvoiceVersioning.production s₂ = Except.ok m₂ →
        serializeManifest m₁ = serializeManifest m₂)
    ∧ (∀ m₁ m₂,
        expandModel name version groups srcs InvoiceVersioning.dev s₁ = Except.ok m₁ →
        expandModel name version groups srcs InvoiceVersioning.dev s₂ = Except.ok m₂ →
        m₁.groups = m₂.groups ∧ m₁.parcels = m₂.parcels ∧ (s₁ ≠ s₂ → m₁.id ≠ m₂.id))
    ∧ (∀ v₁ v₂ m₁ m₂,
        expandModel name version groups srcs v₁ s₁ = Except.ok m₁ →
        expandModel name version groups srcs v₂ s₂ = Except.ok m₂ →
        m₁.groups = m₂.groups ∧ m₁.parcels = m₂.parcels) := by
  have hgen : ∀ (v : InvoiceVersioning) (s : String) (m : Manifest),
      expandModel name version groups srcs v s = Except.ok m →
      ∃ ps, assembleParcels srcs = Except.ok ps
        ∧ m = ⟨versionedId name version v s,
            groups.insertionSort (fun a b => strLe a b = true),
            ps.insertionSort (fun a b => strLe a.hash b.hash = true)⟩ := by
    intro v s m hm
    unfold expandModel at hm
    cases ha : assembleParcels srcs with
    | error e => rw [ha] at hm; exact absurd hm (by simp [Except.map])
    | ok ps =>
      rw [ha] at hm
      simp only [Except.map] at hm
      injection hm with hm'
      exact ⟨ps, rfl, hm'.symm⟩
  have hassemble : ∀ (v₁ v₂ : InvoiceVersioning) (m₁ m₂ : Manifest),
      expandModel name version groups srcs v₁ s₁ = Except.ok m₁ →
      expandModel name version groups srcs v₂ s₂ = Except.ok m₂ →
      m₁.groups = m₂.groups ∧ m₁.parcels = m₂.parcels := by
    intro v₁ v₂ m₁ m₂ h1 h2
    obtain ⟨ps₁, ha₁, hm₁⟩ := hgen v₁ s₁ m₁ h1
    obtain ⟨ps₂, ha₂, hm₂⟩ := hgen v₂ s₂ m₂ h2
    rw [ha₁] at ha₂
    injection ha₂ with hps
    subst hps
    rw [hm₁, hm₂]
    exact ⟨rfl, rfl⟩
  refine ⟨rfl, ?_, ?_, hassemble⟩
  · intro m₁ m₂ h1 h2
    obtain ⟨ps₁, ha₁, hm₁⟩ := hgen _ _ _ h1
    obtain ⟨ps₂, ha₂, hm₂⟩ := hgen _ _ _ h2
    rw [ha₁] at ha₂
    injection ha₂ with hps
    subst hps
    rw [hm₁, hm₂]
    rfl
  · intro m₁ m₂ h1 h2
    refine ⟨(hassemble _ _ _ _ h1 h2).1, (hassemble _ _ _ _ h1 h2).2, ?_⟩
    intro hne hid
    obtain ⟨ps₁, ha₁, hm₁⟩ := hgen _ _ _ h1
    obtain ⟨ps₂, ha₂, hm₂⟩ := hgen _ _ _ h2
    rw [hm₁, hm₂] at hid
    simp only [versionedId] at hid
    exact hne (string_append_cancel_left _ _ _ hid)

/-- C3 witness: a concrete dev-policy expansion at stamps "x" and "y" —
equal groups, equal parcels, distinct identity strings. -/
theorem versioning_affects_only_identity_witness :
    (⟨"a/1-x", [], []⟩ : Manifest).groups = (⟨"a/1-y", [], []⟩ : Manifest).groups
    ∧ (⟨"a/1-x", [], []⟩ : Manifest).parcels = (⟨"a/1-y", [], []⟩ : Manifest).parcels
    ∧ (⟨"a/1-x", [], []⟩ : Manifest).id ≠ (⟨"a/1-y", [], []⟩ : Manifest).id := by
  have h := (versioning_affects_only_identity "a" "1" [] [] "x" "y").2.2.1
    ⟨"a/1-x", [], []⟩ ⟨"a/1-y", [], []⟩ rfl rfl
  exact ⟨h.1, h.2.1, h.2.2 (by decide)⟩

/-- Adding a group membership never changes a parcel's hash. -/
theorem addGroup_hash (p : Parcel) (g : String) : (addGroup p g).hash = p.hash := by
  unfold addGroup
  split <;> rfl

/-- Membership set after adding a group. -/
theorem addGroup_mem (p : Parcel) (g g' : String) :
    g' ∈ (addGroup p g).memberOf ↔ g' ∈ p.memberOf ∨ g' = g := by
  unfold addGroup
  by_cases h : g ∈ p.memberOf
  · rw [if_pos h]
    constructor
    · exact fun hm => Or.inl hm
    · rintro (hm | rfl)
      · exact hm
      · exact h
  · rw [if_neg h]
    simp [List.mem_append]

/-- A found parcel is in the list and carries the looked-up hash. -/
theorem findByHash_mem (ps : List Parcel) (h : String) (p : Parcel)
    (hf : findByHash ps h = some p) : p ∈ ps ∧ p.hash = h := by
  induction ps with
  | nil => simp [findByHash] at hf
  | cons q rest ih =>
    by_cases hq : q.hash = h
    · rw [findByHash, if_pos hq] at hf
      injection hf with h'
      subst h'
      exact ⟨List.mem_cons_self q rest, hq⟩
    · rw [findByHash, if_neg hq] at hf
      obtain ⟨h1, h2⟩ := ih hf
      exact ⟨List.mem_cons_of_mem q h1, h2⟩

/-- Hash list after a successful merge of one occurrence: unchanged when
the hash was already present, appended otherwise. -/
theorem insertSource_ok_hashes (s : ParcelSource) (acc acc' : List Parcel)
    (h : insertSource s acc = Except.ok acc') :
    acc'.map Parcel.hash
      = if s.hash ∈ acc.map Parcel.hash then acc.map Parcel.hash
        else acc.map Parcel.hash ++ [s.hash] := by
  induction acc generalizing acc' with
  | nil =>
    simp only [insertSource, Except.ok.injEq] at h
    subst h
    simp
  | cons p rest ih =>
    simp only [insertSource] at h
    by_cases hp : p.hash = s.hash
    · rw [if_pos hp] at h
      by_cases hmeta : p.mediaType = s.mediaType ∧ p.label = s.label
      · rw [if_pos hmeta] at h
        injection h with h'
        subst h'
        simp [addGroup_hash, hp]
      · rw [if_neg hmeta] at h
        exact absurd h (by simp)
    · rw [if_neg hp] at h
      cases hrec : insertSource s rest with
      | error e =>
        rw [hrec] at h
        exact absurd h (by simp [Except.map])
      | ok rest' =>
        rw [hrec] at h
        simp only [Except.map, Except.ok.injEq] at h
        subst h
        have hne : ¬ s.hash = p.hash := fun hh => hp hh.symm
        by_cases hmem : s.hash ∈ rest.map Parcel.hash <;>
          simp [ih rest' hrec, hmem, hne]

/-- Lookup after a successful merge of one occurrence: at the occurrence's
hash the found parcel gains the occurrence's group (or is freshly created
with it); every other hash is unaffected. -/
theorem insertSource_ok_find (s : ParcelSource) (acc acc' : List Parcel)
    (h : insertSource s acc = Except.ok acc') (h' : String) :
    findByHash acc' h'
      = if h' = s.hash then
          (match findByHash acc s.hash with
           | some p => some (addGroup p s.group)
           | none => some ⟨s.hash, s.mediaType, s.label, [s.group]⟩)
        else findByHash acc h' := by
  induction acc generalizing acc' with
  | nil =>
    simp only [insertSource, Except.ok.injEq] at h
    subst h
    by_cases hh : h' = s.hash
    · subst hh
      simp [findByHash]
    · have hne : ¬ s.hash = h' := fun he => hh he.symm
      simp [findByHash, hh, hne]
  | cons p rest ih =>
    simp only [insertSource] at h
    by_cases hp : p.hash = s.hash
    · rw [if_pos hp] at h
      by_cases hmeta : p.mediaType = s.mediaType ∧ p.label = s.label
      · rw [if_pos hmeta] at h
        injection h with h2
        subst h2
        by_cases hh : h' = s.hash
        · subst hh
          simp [findByHash, addGroup_hash, hp]
        · have hph : ¬ (addGroup p s.group).hash = h' := by
            rw [addGroup_hash, hp]
            exact fun he => hh he.symm
          have hph2 : ¬ p.hash = h' := by
            rw [hp]
            exact fun he => hh he.symm
          simp [findByHash, hph, hph2, hh]
      · rw [if_neg hmeta] at h
        exact absurd h (by simp)
    · rw [if_neg hp] at h
      cases hrec : insertSource s rest with
      | error e =>
        rw [hrec] at h
        exact absurd h (by simp [Except.map])
      | ok rest' =>
        rw [hrec] at h
        simp only [Except.map, Except.ok.injEq] at h
        subst h
        have hrecf := ih rest' hrec
        by_cases hh : h' = s.hash
        · subst hh
          simp [findByHash, hp, hrecf]
        · by_cases hph : p.hash = h' <;> simp [findByHash, hph, hrecf, hh]

/-- Merging one further occurrence preserves the assembler's invariant,
with that occurrence appended to the seen list. -/
theorem insertSource_preserves_invariant (seen : List ParcelSource) (s : ParcelSource)
    (acc acc' : List Parcel) (hinv : assemblyInvariant seen acc)
    (h : insertSource s acc = Except.ok acc') :
    assemblyInvariant (seen ++ [s]) acc' := by
  obtain ⟨hnd, hfind, hcover⟩ := hinv
  have hhashes := insertSource_ok_hashes s acc acc' h
  have hfind' := insertSource_ok_find s acc acc' h
  refine ⟨?_, ?_, ?_⟩
  · rw [hhashes]
    by_cases hmem : s.hash ∈ acc.map Parcel.hash
    · simpa [hmem] using hnd
    · simp [hmem, List.nodup_append, hnd]
  · intro h' p hp
    rw [hfind' h'] at hp
    by_cases hh : h' = s.hash
    · rw [if_pos hh] at hp
      cases hfold : findByHash acc s.hash with
      | some q =>
        rw [hfold] at hp
        injection hp with hp2
        subst hp2
        obtain ⟨hqh, hqmem⟩ := hfind s.hash q hfold
        constructor
        · rw [addGroup_hash, hqh, hh]
        · intro g
          rw [addGroup_mem]
          constructor
          · rintro (hg | rfl)
            · obtain ⟨t, ht, h3, h4⟩ := (hqmem g).mp hg
              exact ⟨t, List.mem_append_left _ ht, by rw [h3, ← hh], h4⟩
            · exact ⟨s, List.mem_append_right _ (by simp), by rw [← hh], rfl⟩
          · rintro ⟨t, ht, h3, h4⟩
            rcases List.mem_append.mp ht with ht1 | ht2
            · exact Or.inl ((hqmem g).mpr ⟨t, ht1, by rw [h3, hh], h4⟩)
            · have hts : t = s := by simpa using ht2
              subst hts
              exact Or.inr h4.symm
      | none =>
        rw [hfold] at hp
        injection hp with hp2
        subst hp2
        constructor
        · exact hh.symm
        · intro g
          constructor
          · intro hg
            have hgs : g = s.group := by simpa using hg
            subst hgs
            exact ⟨s, List.mem_append_right _ (by simp), hh.symm, rfl⟩
          · rintro ⟨t, ht, h3, h4⟩
            rcases List.mem_append.mp ht with ht1 | ht2
            · exfalso
              obtain ⟨q, hq⟩ := hcover t ht1
              rw [h3, hh] at hq
              rw [hfold] at hq
              exact Option.noConfusion hq
            · have hts : t = s := by simpa using ht2
              subst hts
              simp [← h4]
    · rw [if_neg hh] at hp
      obtain ⟨h1, h2⟩ := hfind h' p hp
      refine ⟨h1, fun g => ?_⟩
      rw [h2 g]
      constructor
      · rintro ⟨t, ht, h3, h4⟩
        exact ⟨t, List.mem_append_left _ ht, h3, h4⟩
      · rintro ⟨t, ht, h3, h4⟩
        rcases List.mem_append.mp ht with ht1 | ht2
        · exact ⟨t, ht1, h3, h4⟩
        · exfalso
          have hts : t = s := by simpa using ht2
          subst hts
          exact hh h3.symm
  · intro t ht
    rcases List.mem_append.mp ht with ht1 | ht2
    · obtain ⟨q, hq⟩ := hcover t ht1
      rw [hfind' t.hash]
      by_cases hth : t.hash = s.hash
      · rw [if_pos hth]
        rw [hth] at hq
        rw [hq]
        exact ⟨addGroup q s.group, rfl⟩
      · rw [if_neg hth]
        exact ⟨q, hq⟩
    · have hts : t = s := by simpa using ht2
      subst hts
      rw [hfind' t.hash, if_pos rfl]
      cases hfold : findByHash acc t.hash with
      | some q => exact ⟨addGroup q t.group, rfl⟩
      | none => exact ⟨_, rfl⟩

/-- The assembler's fold maintains the invariant across any suffix of
occurrences. -/
theorem assembleParcels_invariant_aux (srcs : List ParcelSource)
    (seen : List ParcelSource) (acc ps : List Parcel)
    (hinv : assemblyInvariant seen acc)
    (h : srcs.foldlM (fun acc s => insertSource s acc) acc = Except.ok ps) :
    assemblyInvariant (seen ++ srcs) ps := by
  induction srcs generalizing seen acc with
  | nil =>
    rw [List.foldlM_nil] at h
    have h2 : Except.ok acc = (Except.ok ps : Except AssemblyError (List Parcel)) := h
    injection h2 with h3
    subst h3
    simpa using hinv
  | cons s rest ih =>
    rw [List.foldlM_cons] at h
    cases hi : insertSource s acc with
    | error e =>
      rw [hi] at h
      have h2 : (Except.error e : Except AssemblyError (List Parcel)) = Except.ok ps := h
      exact absurd h2 (by simp)
    | ok acc' =>
      rw [hi] at h
      have h2 : rest.foldlM (fun acc s => insertSource s acc) acc' = Except.ok ps := h
      have hstep := insertSource_preserves_invariant seen s acc acc' hinv hi
      have hrest := ih (seen ++ [s]) acc' hstep h2
      simpa [List.append_assoc] using hrest

/-- A successful assembly satisfies the invariant with respect to all its
input occurrences. -/
theorem assembleParcels_invariant (srcs : List ParcelSource) (ps : List Parcel)
    (h : assembleParcels srcs = Except.ok ps) : assemblyInvariant srcs ps := by
  have hbase : assemblyInvariant [] [] := by
    refine ⟨by simp, ?_, ?_⟩
    · intro h' p hp
      simp [findByHash] at hp
    · intro t ht
      simp at ht
  have := assembleParcels_invariant_aux srcs [] [] ps hbase h
  simpa using this

/-- C1: in every assembled manifest the parcels carry pairwise distinct
content hashes, and every content occurrence is represented by exactly one
parcel for its hash whose group-membership set is precisely the union of
the group memberships of all occurrences with that hash — identical bytes
from any two sources collapse to one parcel, never two. -/
theorem manifest_parcels_deduplicated (name version : String) (groups : List String)
    (srcs : List ParcelSource) (versioning : InvoiceVersioning) (stamp : String)
    (m : Manifest)
    (h : expandModel name version groups srcs versioning stamp = Except.ok m) :
    ((m.parcels.map Parcel.hash).Nodup)
    ∧ ∀ s ∈ srcs, ∃ p ∈ m.parcels, p.hash = s.hash
        ∧ (∀ g, g ∈ p.memberOf ↔ ∃ t ∈ srcs, t.hash = s.hash ∧ t.group = g) := by
  unfold expandModel at h
  cases ha : assembleParcels srcs with
  | error e =>
    rw [ha] at h
    exact absurd h (by simp [Except.map])
  | ok ps =>
    rw [ha] at h
    simp only [Except.map, Except.ok.injEq] at h
    subst h
    obtain ⟨hnd, hfind, hcover⟩ := assembleParcels_invariant srcs ps ha
    have hperm : (ps.insertionSort (fun a b => strLe a.hash b.hash = true)).Perm ps :=
      List.perm_insertionSort _ _
    constructor
    · exact ((hperm.map Parcel.hash).nodup_iff).mpr hnd
    · intro s hs
      obtain ⟨q, hq⟩ := hcover s hs
      obtain ⟨hqh, hqmem⟩ := hfind s.hash q hq
      refine ⟨q, ?_, hqh, fun g => hqmem g⟩
      exact (hperm.mem_iff).mpr (findByHash_mem ps s.hash q hq).1

/-- C1 witness: expanding three concrete occurrences — two byte-identical
files contributed by groups g1 and g2 plus one distinct file — yields a
manifest with one parcel per hash, the shared hash carrying both group
memberships. -/
theorem manifest_parcels_deduplicated_witness :
    ((((⟨"app/1.0.0", ["g1", "g2"],
        [⟨"h1", "application/wasm", "a.wasm", ["g1", "g2"]⟩,
         ⟨"h2", "application/wasm", "b.wasm", ["g1"]⟩]⟩ : Manifest)).parcels.map
          Parcel.hash).Nodup)
    ∧ ∀ s ∈ sampleSources,
        ∃ p ∈ (⟨"app/1.0.0", ["g1", "g2"],
            [⟨"h1", "application/wasm", "a.wasm", ["g1", "g2"]⟩,
             ⟨"h2", "application/wasm", "b.wasm", ["g1"]⟩]⟩ : Manifest).parcels,
          p.hash = s.hash
          ∧ (∀ g, g ∈ p.memberOf ↔ ∃ t ∈ sampleSources, t.hash = s.hash ∧ t.group = g) :=
  manifest_parcels_deduplicated "app" "1.0.0" ["g2", "g1"] sampleSources
    InvoiceVersioning.production "s" _ rfl
